import Mathlib

/-!
Verification of the PyClickhouse typed tabular codec and adaptive schema
engine (`pyclickhouse/Cursor.py`) against its natural-language specification.

The Python code is shallowly embedded: Python dicts become association
lists with insertion-order iteration and update-or-append assignment,
Python exceptions become `Except`/`Option` results, and machine quantities
become `Nat`/`Int`.  Strings are modelled as scalars in the flattener
(Python 2 `str` semantics, under which the module behaves as documented).
The `formatter` and `FilterableCache` modules are not part of the sources
under verification; where their behaviour is needed it is modelled from the
spec and marked as such.
-/

set_option autoImplicit false

namespace PyClickhouse

universe u v

/-! ## Association lists: the embedding of Python dicts.

Iteration order is list order (Python dicts preserve insertion order);
assignment `d[k] = v` updates the first occurrence in place or appends. -/

/-- alookup finds the value stored under key `k` (Python `d[k]` / `k in d`). -/
def alookup {α : Type u} (st : List (String × α)) (k : String) : Option α :=
  match st with
  | [] => Option.none
  | (k2, v) :: rest => if k2 = k then Option.some v else alookup rest k

/-- aset is Python dict assignment `d[k] = v`: update in place or append. -/
def aset {α : Type u} (st : List (String × α)) (k : String) (v : α) : List (String × α) :=
  match st with
  | [] => [(k, v)]
  | (k2, v2) :: rest => if k2 = k then (k, v) :: rest else (k2, v2) :: aset rest k v

/-- aupdate is Python `d.update(other)`: assign every pair of `other` in order. -/
def aupdate {α : Type u} (st other : List (String × α)) : List (String × α) :=
  other.foldl (fun acc p => aset acc p.1 p.2) st

theorem alookup_aset_self {α : Type u} (st : List (String × α)) (k : String) (v : α) :
    alookup (aset st k v) k = Option.some v := by
  induction st with
  | nil => simp [aset, alookup]
  | cons hd tl ih =>
    obtain ⟨k2, v2⟩ := hd
    by_cases h : k2 = k
    · simp [aset, alookup, h]
    · simp [aset, alookup, h, ih]

theorem alookup_aset_ne {α : Type u} (st : List (String × α)) (k k2 : String) (v : α)
    (h : k2 ≠ k) : alookup (aset st k v) k2 = alookup st k2 := by
  induction st with
  | nil => simp [aset, alookup, Ne.symm h]
  | cons hd tl ih =>
    obtain ⟨k3, v3⟩ := hd
    by_cases h3 : k3 = k
    · subst h3
      simp [aset, alookup, Ne.symm h]
    · simp only [aset, if_neg h3]
      by_cases h4 : k3 = k2
      · simp [alookup, h4]
      · simp [alookup, h4, ih]

theorem keys_aset {α : Type u} (st : List (String × α)) (k : String) (v : α) :
    (aset st k v).map Prod.fst =
      if k ∈ st.map Prod.fst then st.map Prod.fst else st.map Prod.fst ++ [k] := by
  induction st with
  | nil => simp [aset]
  | cons hd tl ih =>
    obtain ⟨k2, v2⟩ := hd
    by_cases h : k2 = k
    · simp [aset, h]
    · by_cases h2 : k ∈ tl.map Prod.fst <;>
        simp [aset, h, ih, h2, Ne.symm h]

theorem nodup_keys_aset {α : Type u} (st : List (String × α)) (k : String) (v : α)
    (h : (st.map Prod.fst).Nodup) : ((aset st k v).map Prod.fst).Nodup := by
  rw [keys_aset]
  by_cases hm : k ∈ st.map Prod.fst
  · simpa [hm] using h
  · simp only [if_neg hm]
    refine List.Nodup.append h (List.nodup_singleton k) ?_
    intro a ha hb
    rw [List.mem_singleton] at hb
    subst hb
    exact hm ha

theorem nodup_keys_aupdate {α : Type u} (st other : List (String × α))
    (h : (st.map Prod.fst).Nodup) : ((aupdate st other).map Prod.fst).Nodup := by
  induction other generalizing st with
  | nil => simpa [aupdate] using h
  | cons hd tl ih =>
    simpa [aupdate] using ih (aset st hd.1 hd.2) (nodup_keys_aset st hd.1 hd.2 h)

theorem alookup_isSome_of_mem {α : Type u} (st : List (String × α)) (k : String) (v : α)
    (h : (k, v) ∈ st) : (alookup st k).isSome := by
  induction st with
  | nil => cases h
  | cons hd tl ih =>
    obtain ⟨k2, v2⟩ := hd
    cases h with
    | head => simp [alookup]
    | tail _ hmem =>
      by_cases hk : k2 = k
      · simp [alookup, hk]
      · simpa [alookup, hk] using ih hmem

theorem mem_of_alookup_eq_some {α : Type u} (st : List (String × α)) (k : String) (v : α)
    (h : alookup st k = Option.some v) : (k, v) ∈ st := by
  induction st with
  | nil => simp [alookup] at h
  | cons hd tl ih =>
    obtain ⟨k2, v2⟩ := hd
    by_cases hk : k2 = k
    · subst hk
      simp [alookup] at h
      simp [h]
    · simp [alookup, hk] at h
      exact List.mem_cons_of_mem _ (ih h)

theorem alookup_eq_some_of_mem_nodup {α : Type u} (st : List (String × α)) (k : String) (v : α)
    (hnd : (st.map Prod.fst).Nodup) (h : (k, v) ∈ st) : alookup st k = Option.some v := by
  induction st with
  | nil => cases h
  | cons hd tl ih =>
    obtain ⟨k2, v2⟩ := hd
    simp only [List.map_cons, List.nodup_cons] at hnd
    cases h with
    | head => simp [alookup]
    | tail _ hmem =>
      have hk : k2 ≠ k := by
        intro he
        subst he
        exact hnd.1 (List.mem_map_of_mem Prod.fst hmem)
      simpa [alookup, hk] using ih hnd.2 hmem

/-! ## Parameter escaping (`Cursor._escapeparameter`, `Cursor.executewithpayload`). -/

/-- squote is the single-quote character. -/
def squote : Char := Char.ofNat 39

/-- bslash is the backslash character. -/
def bslash : Char := Char.ofNat 92

/-- sq wraps a string in single quotes, as Python `"'%s'" % s` does. -/
def sq (s : String) : String := String.singleton squote ++ s ++ String.singleton squote

/-- PParam is a Python value passed as a positional query argument.  A float
is carried by its `str()` decimal text, which abstracts the floating-point
printing the embedding does not model. -/
inductive PParam where
  | pbool (b : Bool)
  | pint (n : Int)
  | pfloat (txt : String)
  | pdatetime (y mo d h mi s us : Nat)
  | pstr (s : String)

/-- pyReplaceQuote is Python `s.replace("'", "\\'")`: a left-to-right scan
replacing each single quote by backslash-quote, touching nothing else. -/
def pyReplaceQuote : List Char → List Char
  | [] => []
  | c :: rest =>
    if c = squote then bslash :: squote :: pyReplaceQuote rest
    else c :: pyReplaceQuote rest

/-- padZeros left-pads a numeral with zeros to the given width. -/
def padZeros (w : Nat) (s : String) : String :=
  if s.length < w then String.mk (List.replicate (w - s.length) '0') ++ s else s

/-- dtStr renders `str(datetime)` for a datetime with `microsecond=0`:
`YYYY-MM-DD HH:MM:SS`. -/
def dtStr (y mo d h mi s : Nat) : String :=
  padZeros 4 (toString y) ++ "-" ++ padZeros 2 (toString mo) ++ "-" ++ padZeros 2 (toString d) ++
    " " ++ padZeros 2 (toString h) ++ ":" ++ padZeros 2 (toString mi) ++ ":" ++
    padZeros 2 (toString s)

/-- escapeparameter embeds `Cursor._escapeparameter`: bools are checked first
(before the int branch, as in the source), ints and floats pass through
unquoted, datetimes are truncated to whole seconds (`replace(microsecond=0)`)
and quoted, and anything else is stringified, its single quotes
backslash-escaped, and quoted. -/
def escapeparameter : PParam → String
  | .pbool b => if b then "1" else "0"
  | .pint n => toString n
  | .pfloat txt => txt
  | .pdatetime y mo d h mi s _us => sq (dtStr y mo d h mi s)
  | .pstr s => sq (String.mk (pyReplaceQuote s.toList))

/-- claimEscape restates claim C10's description of the rendering:
booleans as unquoted 1/0, ints and floats as unquoted numerals, datetimes
truncated to whole seconds and quoted, and any other value stringified with
each single-quote backslash-escaped (backslashes themselves untouched) and
the whole wrapped in single quotes. -/
def claimEscape : PParam → String
  | .pbool b => if b then "1" else "0"
  | .pint n => toString n
  | .pfloat txt => txt
  | .pdatetime y mo d h mi s _us => sq (dtStr y mo d h mi s)
  | .pstr s =>
    sq (String.mk ((s.toList.map
      (fun c => if c = squote then [bslash, squote] else [c])).flatten))

/-- pyPercentS substitutes `%s` markers left-to-right with the given texts,
as Python `query % tuple(args)` does for `%s`-only format strings. -/
def pyPercentS : List Char → List String → List Char
  | [], _ => []
  | '%' :: 's' :: rest, v :: vs => v.toList ++ pyPercentS rest vs
  | c :: rest, vs => c :: pyPercentS rest vs

/-- executeSubst embeds the argument substitution in
`Cursor.executewithpayload`: when args are present, each is escaped via
`escapeparameter` and spliced at the positional `%s` markers. -/
def executeSubst (query : String) (args : List PParam) : String :=
  if args.length > 0 then String.mk (pyPercentS query.toList (args.map escapeparameter))
  else query

/-! ## Table-name parsing (`Cursor.get_schema`). -/

/-- splitDot is Python `table.split('.')`. -/
def splitDot : List Char → List (List Char)
  | [] => [[]]
  | c :: rest =>
    if c = '.' then [] :: splitDot rest
    else
      match splitDot rest with
      | [] => [[c]]
      | p :: ps => (c :: p) :: ps

theorem splitDot_ne_nil (s : List Char) : splitDot s ≠ [] := by
  cases s with
  | nil => simp [splitDot]
  | cons c rest =>
    by_cases h : c = '.'
    · simp [splitDot, h]
    · simp only [splitDot, if_neg h]
      cases splitDot rest <;> simp

theorem length_splitDot (s : List Char) : (splitDot s).length = s.count '.' + 1 := by
  induction s with
  | nil => simp [splitDot]
  | cons c rest ih =>
    by_cases h : c = '.'
    · simp [splitDot, h, List.count_cons, ih]
    · simp only [splitDot, if_neg h]
      cases hs : splitDot rest with
      | nil => exact absurd hs (splitDot_ne_nil rest)
      | cons p ps =>
        have := ih
        rw [hs] at this
        simp only [List.length_cons] at this ⊢
        simp [List.count_cons, h, this]

theorem splitDot_of_count_zero (s : List Char) (h : s.count '.' = 0) :
    splitDot s = [s] := by
  induction s with
  | nil => simp [splitDot]
  | cons c rest ih =>
    by_cases hc : c = '.'
    · simp [List.count_cons, hc] at h
    · simp only [List.count_cons, hc] at h
      simp [beq_iff_eq, hc] at h
      simp [splitDot, hc, ih h]

theorem splitDot_of_count_one (s : List Char) (h : s.count '.' = 1) :
    ∃ a b, s = a ++ '.' :: b ∧ splitDot s = [a, b] := by
  induction s with
  | nil => simp at h
  | cons c rest ih =>
    by_cases hc : c = '.'
    · subst hc
      simp only [List.count_cons, beq_self_eq_true, if_true] at h
      have hr : rest.count '.' = 0 := by omega
      exact ⟨[], rest, by simp, by simp [splitDot, splitDot_of_count_zero rest hr]⟩
    · simp [List.count_cons, beq_iff_eq, hc] at h
      obtain ⟨a, b, hab, hsplit⟩ := ih h
      exact ⟨c :: a, b, by simp [hab], by simp [splitDot, hc, hsplit]⟩

/-- systemColumnsQuery is the schema query issued by `get_schema`, after
`select` has appended the format clause. -/
def systemColumnsQuery : String :=
  "select name, type from system.columns where database=%s and table=%s FORMAT TabSeparatedWithNamesAndTypes"

/-- schemaCall is the single remote call `get_schema` issues for a database
and table name. -/
def schemaCall (database tablename : List Char) : String :=
  executeSubst systemColumnsQuery
    [.pstr (String.mk database), .pstr (String.mk tablename)]

/-- get_schema_route embeds the name handling of `Cursor.get_schema`: the
name is split on dots; more than two parts raise before any remote call
(`none`, no issued calls); two parts select with (database, table); one part
selects in the `default` database.  The first component lists the remote
calls issued. -/
def get_schema_route (table : List Char) : List String × Option (List Char × List Char) :=
  let parts := splitDot table
  if parts.length > 2 then ([], Option.none)
  else if parts.length = 2 then
    let database := parts.getD 0 []
    let tablename := parts.getD 1 []
    ([schemaCall database tablename], Option.some (database, tablename))
  else
    let database := "default".toList
    let tablename := parts.getD 0 []
    ([schemaCall database tablename], Option.some (database, tablename))

/-! ## Schema reconciliation (`Cursor._ensure_schema`).

`formatter.generalize_type` lives in the `formatter` module, which is not
among the sources; it is taken as a parameter `gen` of the embedding. -/

/-- Ddl is one of the textual statements `_ensure_schema` can issue. -/
inductive Ddl where
  | add (table field ty : String)
  | modify (table field ty : String)
  | optimize (table : String)
deriving DecidableEq

/-- dictOfZip is Python `dict(zip(fields, types))`: later duplicate keys win. -/
def dictOfZip (ks vs : List String) : List (String × String) :=
  (List.zip ks vs).foldl (fun acc p => aset acc p.1 p.2) []

/-- ensureLoop embeds the per-column loop of `_ensure_schema`: absent columns
are added with the desired type, present columns of a differing type are
modified to `gen remote desired` when that differs from the remote type, and
`new_types` collects the effective type of every column.  Results are the
issued alterations, `new_types`, and whether anything was altered. -/
def ensureLoop (gen : String → String → String) (table : String)
    (schema : List (String × String)) :
    List (String × String) → List Ddl × List String × Bool
  | [] => ([], [], false)
  | (f, t) :: rest =>
    let r := ensureLoop gen table schema rest
    match alookup schema f with
    | Option.none => (Ddl.add table f t :: r.1, t :: r.2.1, true)
    | Option.some rt =>
      if rt ≠ t then
        let nt := gen rt t
        if nt ≠ rt then (Ddl.modify table f nt :: r.1, nt :: r.2.1, true)
        else (r.1, nt :: r.2.1, r.2.2)
      else (r.1, t :: r.2.1, r.2.2)

/-- ensureAttempt embeds one attempt of `_ensure_schema` after the remote
schema has been fetched: it diffs, appends the `optimize table` statement
when anything was altered, and — as the source does on line 264 — returns
the original `(fields, types)` pair rather than `new_types`. -/
def ensureAttempt (gen : String → String → String) (table : String)
    (tableFields tableTypes fields types : List String) :
    List Ddl × List String × (List String × List String) :=
  let schema := dictOfZip tableFields tableTypes
  let r := ensureLoop gen table schema (List.zip fields types)
  (r.1 ++ (if r.2.2 then [Ddl.optimize table] else []), r.2.1, (fields, types))

/-- fatalMsg is the message of the exception raised when all retries fail. -/
def fatalMsg (table lastErr : String) : String :=
  "Cannot ensure target schema in " ++ table ++ ", " ++ lastErr

/-- retryGo embeds the `while tries < 5` loop: `k` counts the remaining
allowed attempts, `tries` the failures so far, `last` the last error
message.  The result pairs the number of attempts made with the outcome. -/
def retryGo {α : Type u} (attempt : Nat → Except String α) (table : String) :
    Nat → Nat → String → Nat × Except String α
  | 0, tries, last => (tries, Except.error (fatalMsg table last))
  | k + 1, tries, _ =>
    match attempt tries with
    | Except.ok a => (tries + 1, Except.ok a)
    | Except.error e => retryGo attempt table k (tries + 1) e

/-- ensureSchemaRetry is the retry shell of `_ensure_schema`: up to 5
attempts, each indexed by its try number. -/
def ensureSchemaRetry {α : Type u} (attempt : Nat → Except String α) (table : String) :
    Nat × Except String α :=
  retryGo attempt table 5 0 ""

/-- ensure_schema composes the retry shell with one diffing attempt per try:
attempt `k` first fetches the remote schema afresh (`schemaAt k`, the
`get_schema` round trip of attempt `k`) and only then diffs and alters. -/
def ensure_schema (gen : String → String → String)
    (schemaAt : Nat → Except String (List String × List String))
    (table : String) (fields types : List String) :
    Nat × Except String (List Ddl × List String × (List String × List String)) :=
  ensureSchemaRetry (fun k =>
    match schemaAt k with
    | Except.error e => Except.error e
    | Except.ok (tf, tt) => Except.ok (ensureAttempt gen table tf tt fields types)) table

/-! ## Theorems for claims C10, C8, C7, C2, C1. -/

theorem pyReplaceQuote_eq_flatten (l : List Char) :
    pyReplaceQuote l =
      (l.map (fun c => if c = squote then [bslash, squote] else [c])).flatten := by
  induction l with
  | nil => simp [pyReplaceQuote]
  | cons c rest ih =>
    by_cases h : c = squote <;> simp [pyReplaceQuote, h, ih]

/-- C10: every positional argument is rendered exactly as the claim
describes: booleans as unquoted 1/0, ints and floats as unquoted numerals,
datetimes truncated to whole seconds and single-quoted, and every other
value stringified with each single quote backslash-escaped (backslashes left
alone) and wrapped in single quotes. -/
theorem escapeparameter_spec (p : PParam) : escapeparameter p = claimEscape p := by
  cases p with
  | pstr s => simp [escapeparameter, claimEscape, pyReplaceQuote_eq_flatten]
  | pbool b => rfl
  | pint n => rfl
  | pfloat t => rfl
  | pdatetime y mo d h mi s us => rfl

/-- C8: a table name with more than one dot raises before issuing any remote
call; exactly one dot splits into database and table; no dot looks the name
up in the `default` database. -/
theorem get_schema_name_validation (table : List Char) :
    (table.count '.' > 1 → get_schema_route table = ([], Option.none)) ∧
    (table.count '.' = 1 → ∃ a b, table = a ++ '.' :: b ∧
      get_schema_route table = ([schemaCall a b], Option.some (a, b))) ∧
    (table.count '.' = 0 →
      get_schema_route table =
        ([schemaCall "default".toList table], Option.some ("default".toList, table))) := by
  refine ⟨?_, ?_, ?_⟩
  · intro h
    have hl : (splitDot table).length > 2 := by
      rw [length_splitDot]; omega
    simp [get_schema_route, hl]
  · intro h
    obtain ⟨a, b, hab, hsplit⟩ := splitDot_of_count_one table h
    refine ⟨a, b, hab, ?_⟩
    simp [get_schema_route, hsplit]
  · intro h
    have hsplit := splitDot_of_count_zero table h
    simp [get_schema_route, hsplit]

/-- get_schema_name_validation_witness instantiates C8 at the concrete names
`a.b.c`, `db.tbl` and `tbl`. -/
theorem get_schema_name_validation_witness :
    ("a.b.c".toList.count '.' > 1 ∧ get_schema_route "a.b.c".toList = ([], Option.none)) ∧
    ("tbl".toList.count '.' = 0 ∧
      get_schema_route "tbl".toList =
        ([schemaCall "default".toList "tbl".toList],
          Option.some ("default".toList, "tbl".toList))) := by
  constructor
  · exact ⟨by decide, (get_schema_name_validation "a.b.c".toList).1 (by decide)⟩
  · exact ⟨by decide, (get_schema_name_validation "tbl".toList).2.2 (by decide)⟩

theorem ensureLoop_no_ddl (gen : String → String → String) (table : String)
    (schema : List (String × String)) (l : List (String × String))
    (h : ∀ p ∈ l, ∃ rt, alookup schema p.1 = Option.some rt ∧
      (rt = p.2 ∨ gen rt p.2 = rt)) :
    (ensureLoop gen table schema l).1 = [] ∧ (ensureLoop gen table schema l).2.2 = false := by
  induction l with
  | nil => simp [ensureLoop]
  | cons p rest ih =>
    obtain ⟨f, t⟩ := p
    obtain ⟨rt, hrt, hcase⟩ := h (f, t) (List.mem_cons_self _ _)
    have ihr := ih (fun q hq => h q (List.mem_cons_of_mem _ hq))
    by_cases he : rt = t
    · subst he
      simp [ensureLoop, hrt, ihr.1, ihr.2]
    · have hgen : gen rt t = rt := hcase.resolve_left he
      simp [ensureLoop, hrt, he, hgen, ihr.1, ihr.2]

/-- C7: when every desired column is present remotely with a type that
equals the desired one or generalizes with it back to itself, one
reconciliation attempt issues no ALTER and no OPTIMIZE statement at all. -/
theorem ensure_schema_convergent (gen : String → String → String) (table : String)
    (tableFields tableTypes fields types : List String)
    (h : ∀ p ∈ List.zip fields types,
      ∃ rt, alookup (dictOfZip tableFields tableTypes) p.1 = Option.some rt ∧
        (rt = p.2 ∨ gen rt p.2 = rt)) :
    (ensureAttempt gen table tableFields tableTypes fields types).1 = [] := by
  have hl := ensureLoop_no_ddl gen table (dictOfZip tableFields tableTypes)
    (List.zip fields types) h
  simp [ensureAttempt, hl.1, hl.2]

/-- ensure_schema_convergent_witness instantiates C7 at a remote schema that
widens the desired one: remote `a : String`, desired `a : Int64`, with
generalization absorbing into the remote type. -/
theorem ensure_schema_convergent_witness :
    (ensureAttempt (fun a b => if a = b then a else "String") "t"
      ["a"] ["String"] ["a"] ["Int64"]).1 = [] := by
  refine ensure_schema_convergent _ "t" ["a"] ["String"] ["a"] ["Int64"] ?_
  intro p hp
  simp only [List.zip, List.zipWith, List.mem_singleton] at hp
  subst hp
  exact ⟨"String", by decide, Or.inr (by decide)⟩

theorem retryGo_count {α : Type u} (attempt : Nat → Except String α) (table : String)
    (k : Nat) : ∀ tries last, (retryGo attempt table k tries last).1 ≤ tries + k := by
  induction k with
  | zero => intro tries last; simp [retryGo]
  | succ k ih =>
    intro tries last
    simp only [retryGo]
    cases attempt tries with
    | ok a => simp
    | error e =>
      simp only []
      calc (retryGo attempt table k (tries + 1) e).1 ≤ tries + 1 + k := ih (tries + 1) e
        _ = tries + (k + 1) := by omega

/-- C2: reconciliation makes at most 5 attempts, each one fetching the
remote schema afresh via `schemaAt` before diffing; when every one of the 5
fetches fails, the result is the fatal error whose message carries the last
underlying error. -/
theorem ensure_schema_retry_bounded_and_fatal (gen : String → String → String)
    (schemaAt : Nat → Except String (List String × List String))
    (table : String) (fields types : List String) (es : Nat → String) :
    (ensure_schema gen schemaAt table fields types).1 ≤ 5 ∧
    ((∀ k, k < 5 → schemaAt k = Except.error (es k)) →
      ensure_schema gen schemaAt table fields types =
        (5, Except.error (fatalMsg table (es 4)))) := by
  constructor
  · simpa using retryGo_count _ table 5 0 ""
  · intro h
    have h0 := h 0 (by omega)
    have h1 := h 1 (by omega)
    have h2 := h 2 (by omega)
    have h3 := h 3 (by omega)
    have h4 := h 4 (by omega)
    simp [ensure_schema, ensureSchemaRetry, retryGo, h0, h1, h2, h3, h4]

/-- ensure_schema_retry_bounded_and_fatal_witness instantiates C2 with every
schema fetch failing with the same message. -/
theorem ensure_schema_retry_bounded_and_fatal_witness :
    (ensure_schema (fun a _ => a) (fun _ => Except.error "boom") "t" [] []).1 ≤ 5 ∧
    ensure_schema (fun a _ => a) (fun _ => Except.error "boom") "t" [] [] =
      (5, Except.error (fatalMsg "t" "boom")) := by
  have h := ensure_schema_retry_bounded_and_fatal (fun a _ => a)
    (fun _ => Except.error "boom") "t" [] [] (fun _ => "boom")
  exact ⟨h.1, h.2 (fun k _ => rfl)⟩

/-- C1: code-bug exhibit.  With remote column `a : String` and desired
column `a : Int64`, the generalized effective type is `String` (the
column is left as `String` on the remote table, no alteration is issued),
yet the attempt returns the desired `Int64`, not the effective `String`:
line 264 of Cursor.py returns `types` instead of `new_types`. -/
theorem ensure_schema_returns_desired_not_effective :
    ensureAttempt (fun a b => if a = b then a else "String") "t"
        ["a"] ["String"] ["a"] ["Int64"] =
      ([], ["String"], (["a"], ["Int64"])) ∧ ("String" : String) ≠ "Int64" := by
  constructor
  · decide
  · decide

/-! ## Batch splitting (`Cursor.bulkinsert`).

`formatter.format` lives in the missing `formatter` module; per the spec its
payload is the header lines followed by one encoded row per record, so its
length is modelled as a header length plus a per-record row length. -/

/-- payloadLen: Modelled from the spec: `formatter.format(values, fields,
types)` serializes a batch as header-plus-rows, so the payload length is a
fixed header length plus the sum of the per-record row lengths. -/
def payloadLen {α : Type u} (hdr : Nat) (rowLen : α → Nat) (vs : List α) : Nat :=
  hdr + (vs.map rowLen).sum

/-- slicesGo cuts a list into consecutive slices of `b` elements, with a
structural counter bounding the number of slices. -/
def slicesGo {α : Type u} (b : Nat) : Nat → List α → List (List α)
  | 0, _ => []
  | _, [] => []
  | fl + 1, v :: rest => (v :: rest).take b :: slicesGo b fl ((v :: rest).drop b)

/-- slicesOf is Python `[values[i:i+batch] for i in range(0, len(values), batch)]`,
defined for a positive batch size. -/
def slicesOf {α : Type u} (b : Nat) (vs : List α) : List (List α) :=
  if b = 0 then [] else slicesGo b vs.length vs

/-- bulkChunks runs the recursion body `f` over each sub-batch in order,
concatenating the issued inserts and stopping at the first error, as the
exception aborts the Python for-loop. -/
def bulkChunks {α : Type u} (f : List α → Option (List (List α) × Bool)) :
    List (List α) → Option (List (List α) × Bool)
  | [] => Option.some ([], false)
  | c :: cs =>
    match f c with
    | Option.none => Option.none
    | Option.some (iss, true) => Option.some (iss, true)
    | Option.some (iss, false) =>
      match bulkChunks f cs with
      | Option.none => Option.none
      | Option.some (iss2, e) => Option.some (iss ++ iss2, e)

/-- bulkinsertRun embeds `Cursor.bulkinsert`: a batch whose payload is under
the 2e9 ceiling is inserted whole (the list of issued inserts); otherwise
`batch = int(2e9 / len(payload) * len(values))` sub-batches are formed, a
sub-batch size below 1 raises (the `true` flag, with no insert issued for
the batch), and each slice recurses.  `fuel` bounds the recursion depth;
`none` means the Python recursion never bottoms out. -/
def bulkinsertRun {α : Type u} (hdr : Nat) (rowLen : α → Nat) :
    Nat → List α → Option (List (List α) × Bool)
  | 0, _ => Option.none
  | fuel + 1, vs =>
    if payloadLen hdr rowLen vs < 2000000000 then Option.some ([vs], false)
    else
      let batch := 2000000000 * vs.length / payloadLen hdr rowLen vs
      if batch < 1 then Option.some ([], true)
      else bulkChunks (fun c => bulkinsertRun hdr rowLen fuel c) (slicesOf batch vs)

/-! ## Theorems for claims C4 and C5. -/

theorem bulkSpinAux (fuel : Nat) :
    bulkinsertRun 0 (fun r => r) fuel [1000000000, 1000000000] = Option.none := by
  induction fuel with
  | zero => rfl
  | succ fuel ih =>
    simp [bulkinsertRun, payloadLen, slicesOf, slicesGo, bulkChunks, ih]

/-- C4: code-bug exhibit.  A batch of two records of 1e9 payload bytes each
(empty header) has serialized size exactly the 2e9 ceiling; `bulkinsert`
then computes `batch = len(values)` and recurses on the identical batch at
every depth, so no recursion depth ever terminates — the claimed splitting
into sub-batches under the ceiling never happens. -/
theorem bulkinsert_on_exact_ceiling_never_terminates :
    ¬ ∃ fuel out,
      bulkinsertRun 0 (fun r => r) fuel [1000000000, 1000000000] = Option.some out := by
  rintro ⟨fuel, out, h⟩
  rw [bulkSpinAux fuel] at h
  exact Option.noConfusion h

theorem sum_rowLen_le {α : Type u} (rowLen : α → Nat) (K : Nat) (l : List α)
    (h : ∀ r ∈ l, rowLen r ≤ K) : (l.map rowLen).sum ≤ K * l.length := by
  induction l with
  | nil => simp
  | cons x rest ih =>
    have hx := h x (List.mem_cons_self _ _)
    have hr := ih (fun r hrr => h r (List.mem_cons_of_mem _ hrr))
    simp only [List.map_cons, List.sum_cons, List.length_cons, Nat.mul_succ]
    omega

theorem exists_oversized {α : Type u} (hdr : Nat) (rowLen : α → Nat) (vs : List α)
    (hhdr : hdr < 2000000000)
    (hge : 2000000000 ≤ payloadLen hdr rowLen vs)
    (hlt : 2000000000 * vs.length < payloadLen hdr rowLen vs) :
    ∃ r ∈ vs, 2000000000 < hdr + rowLen r := by
  by_contra hc
  push_neg at hc
  have hK : ∀ r ∈ vs, rowLen r ≤ 2000000000 - hdr := by
    intro r hr
    have := hc r hr
    omega
  have hsum := sum_rowLen_le rowLen (2000000000 - hdr) vs hK
  have hpos : 1 ≤ vs.length := by
    cases vs with
    | nil => simp [payloadLen] at hge; omega
    | cons a l => simp
  have hmul : hdr * 1 ≤ hdr * vs.length := Nat.mul_le_mul_left hdr hpos
  have hsplit : (2000000000 - hdr) * vs.length + hdr * vs.length =
      2000000000 * vs.length := by
    rw [← Nat.add_mul]
    congr 1
    omega
  have : payloadLen hdr rowLen vs ≤ 2000000000 * vs.length := by
    have h1 : payloadLen hdr rowLen vs ≤ hdr + (2000000000 - hdr) * vs.length := by
      simp only [payloadLen]
      omega
    omega
  omega

theorem slicesGo_flatten {α : Type u} (b : Nat) (hb : 1 ≤ b) :
    ∀ fl (vs : List α), vs.length ≤ fl → (slicesGo b fl vs).flatten = vs := by
  intro fl
  induction fl with
  | zero =>
    intro vs hl
    have : vs = [] := List.eq_nil_of_length_eq_zero (by omega)
    subst this
    simp [slicesGo]
  | succ fl ih =>
    intro vs hl
    cases vs with
    | nil => simp [slicesGo]
    | cons v rest =>
      have hdrop : ((v :: rest).drop b).length ≤ fl := by
        simp only [List.length_drop, List.length_cons]
        simp only [List.length_cons] at hl
        omega
      simp only [slicesGo, List.flatten_cons, ih _ hdrop, List.take_append_drop]

theorem mem_of_mem_slicesOf {α : Type u} (b : Nat) (hb : 1 ≤ b) (vs c : List α)
    (hc : c ∈ slicesOf b vs) (r : α) (hr : r ∈ c) : r ∈ vs := by
  have hflat : (slicesOf b vs).flatten = vs := by
    simp only [slicesOf, if_neg (by omega : ¬ b = 0)]
    exact slicesGo_flatten b hb vs.length vs le_rfl
  rw [← hflat]
  exact List.mem_flatten.mpr ⟨c, hc, hr⟩

theorem bulkChunks_spec {α : Type u} (hdr : Nat) (rowLen : α → Nat)
    (f : List α → Option (List (List α) × Bool))
    (H : ∀ c iss e, f c = Option.some (iss, e) →
      ((e = true → ∃ r ∈ c, 2000000000 < hdr + rowLen r) ∧
        ∀ bch ∈ iss, payloadLen hdr rowLen bch < 2000000000)) :
    ∀ cs issued e, bulkChunks f cs = Option.some (issued, e) →
      ((e = true → ∃ c ∈ cs, ∃ r ∈ c, 2000000000 < hdr + rowLen r) ∧
        ∀ bch ∈ issued, payloadLen hdr rowLen bch < 2000000000) := by
  intro cs
  induction cs with
  | nil =>
    intro issued e h
    simp only [bulkChunks, Option.some.injEq, Prod.mk.injEq] at h
    obtain ⟨h1, h2⟩ := h
    subst h1; subst h2
    exact ⟨by simp, by simp⟩
  | cons c cs ih =>
    intro issued e h
    simp only [bulkChunks] at h
    cases hf : f c with
    | none => rw [hf] at h; exact Option.noConfusion h
    | some pr =>
      obtain ⟨iss1, e1⟩ := pr
      have Hc := H c iss1 e1 hf
      rw [hf] at h
      cases e1 with
      | true =>
        simp only [Option.some.injEq, Prod.mk.injEq] at h
        obtain ⟨h1, h2⟩ := h
        subst h1; subst h2
        exact ⟨fun _ => ⟨c, List.mem_cons_self _ _, Hc.1 rfl⟩, Hc.2⟩
      | false =>
        cases hrest : bulkChunks f cs with
        | none => rw [hrest] at h; exact Option.noConfusion h
        | some pr2 =>
          obtain ⟨iss2, e2⟩ := pr2
          rw [hrest] at h
          simp only [Option.some.injEq, Prod.mk.injEq] at h
          obtain ⟨h1, h2⟩ := h
          subst h1; subst h2
          have Hrest := ih iss2 _ hrest
          refine ⟨fun he => ?_, fun bch hb => ?_⟩
          · obtain ⟨c2, hc2, hr⟩ := Hrest.1 he
            exact ⟨c2, List.mem_cons_of_mem _ hc2, hr⟩
          · rcases List.mem_append.mp hb with hb | hb
            · exact Hc.2 bch hb
            · exact Hrest.2 bch hb

theorem bulkRun_spec {α : Type u} (hdr : Nat) (rowLen : α → Nat)
    (hhdr : hdr < 2000000000) :
    ∀ fuel (vs : List α) issued e,
      bulkinsertRun hdr rowLen fuel vs = Option.some (issued, e) →
      ((e = true → ∃ r ∈ vs, 2000000000 < hdr + rowLen r) ∧
        ∀ bch ∈ issued, payloadLen hdr rowLen bch < 2000000000) := by
  intro fuel
  induction fuel with
  | zero => intro vs issued e h; exact Option.noConfusion h
  | succ fuel ih =>
    intro vs issued e h
    simp only [bulkinsertRun] at h
    by_cases hp : payloadLen hdr rowLen vs < 2000000000
    · rw [if_pos hp] at h
      simp only [Option.some.injEq, Prod.mk.injEq] at h
      obtain ⟨h1, h2⟩ := h
      subst h1; subst h2
      refine ⟨by simp, fun bch hb => ?_⟩
      rw [List.mem_singleton] at hb
      subst hb
      exact hp
    · rw [if_neg hp] at h
      have hge : 2000000000 ≤ payloadLen hdr rowLen vs := by omega
      by_cases hb : 2000000000 * vs.length / payloadLen hdr rowLen vs < 1
      · rw [if_pos hb] at h
        simp only [Option.some.injEq, Prod.mk.injEq] at h
        obtain ⟨h1, h2⟩ := h
        subst h1; subst h2
        have hzero : 2000000000 * vs.length / payloadLen hdr rowLen vs = 0 :=
          Nat.lt_one_iff.mp hb
        have hlt : 2000000000 * vs.length < payloadLen hdr rowLen vs :=
          (Nat.div_eq_zero_iff (by omega)).mp hzero
        exact ⟨fun _ => exists_oversized hdr rowLen vs hhdr hge hlt, by simp⟩
      · rw [if_neg hb] at h
        have hb1 : 1 ≤ 2000000000 * vs.length / payloadLen hdr rowLen vs :=
          le_of_not_lt hb
        have hchunks := bulkChunks_spec hdr rowLen
          (fun c => bulkinsertRun hdr rowLen fuel c)
          (fun c iss e2 hc => ih c iss e2 hc)
          (slicesOf (2000000000 * vs.length / payloadLen hdr rowLen vs) vs) issued e h
        refine ⟨fun he => ?_, hchunks.2⟩
        obtain ⟨c, hc, r, hr, hover⟩ := hchunks.1 he
        exact ⟨r, mem_of_mem_slicesOf _ hb1 vs c hc r hr, hover⟩

/-- C5: when `bulkinsert` raises the fatal sizing error (the computed
sub-batch size fell below 1 at some recursion point), some single record of
the batch has a serialized payload exceeding the 2e9 ceiling, and every
insert statement actually issued during the run was for a sub-batch whose
payload is under the ceiling — in particular none was issued for the
offending batch. -/
theorem bulkinsert_error_means_oversized_record {α : Type u} (hdr : Nat)
    (rowLen : α → Nat) (fuel : Nat) (vs : List α) (issued : List (List α))
    (hhdr : hdr < 2000000000)
    (h : bulkinsertRun hdr rowLen fuel vs = Option.some (issued, true)) :
    (∃ r ∈ vs, 2000000000 < hdr + rowLen r) ∧
      ∀ bch ∈ issued, payloadLen hdr rowLen bch < 2000000000 := by
  have := bulkRun_spec hdr rowLen hhdr fuel vs issued true h
  exact ⟨this.1 rfl, this.2⟩

/-- bulkinsert_error_means_oversized_record_witness instantiates C5 at a
single record of 3e9 payload bytes: the run raises immediately, no insert is
issued, and the record indeed exceeds the ceiling. -/
theorem bulkinsert_error_means_oversized_record_witness :
    (0 : Nat) < 2000000000 ∧
    bulkinsertRun 0 (fun r => r) 1 [3000000000] = Option.some ([], true) ∧
    ((∃ r ∈ [3000000000], 2000000000 < 0 + r) ∧
      ∀ bch ∈ ([] : List (List Nat)), payloadLen 0 (fun r => r) bch < 2000000000) := by
  refine ⟨by norm_num, by rfl, ?_⟩
  exact bulkinsert_error_means_oversized_record 0 (fun r => r) 1 [3000000000] []
    (by norm_num) (by rfl)

/-! ## Filterable result cache (`Cursor.cached_select`).

The `FilterableCache` module is not among the sources; its operations are
modelled from the spec.  A cached row is an association of field names to
values; a filter maps a field name to the list of acceptable values
(a scalar filter being a one-element list, a list filter or materialized
range its list of values). -/

/-- PRow is one decoded result row. -/
def PRow : Type := List (String × String)

/-- CacheState maps a dataset tag to its indexed keys and stored rows. -/
def CacheState : Type := List (String × (List String × List PRow))

/-- charListLt is lexicographic comparison on code points, Python's `<` on
strings. -/
def charListLt : List Char → List Char → Bool
  | [], [] => false
  | [], _ :: _ => true
  | _ :: _, [] => false
  | a :: as, b :: bs => if a < b then true else if b < a then false else charListLt as bs

/-- strInsertSorted inserts into an ascending list, keeping order. -/
def strInsertSorted (s : String) : List String → List String
  | [] => [s]
  | t :: rest =>
    if charListLt t.toList s.toList then t :: strInsertSorted s rest else s :: t :: rest

/-- sortStrings is Python `sorted` on strings (insertion sort, ascending). -/
def sortStrings (l : List String) : List String := l.foldr strInsertSorted []

/-- hasDataset: Modelled from the spec: `FilterableCache.has_dataset(tag)`
checks whether an entry exists for the tag. -/
def hasDataset (cache : CacheState) (tag : String) : Bool :=
  (alookup cache tag).isSome

/-- addDataset: Modelled from the spec: `FilterableCache.add_dataset(tag,
keys, rows)` stores the decoded result set under the tag, indexed on the
given fields; an existing entry is replaced wholesale. -/
def addDataset (cache : CacheState) (tag : String) (keys : List String)
    (rows : List PRow) : CacheState :=
  aset cache tag (keys, rows)

/-- rowMatches: Modelled from the spec: a row matches when, for every field
named in the filter, its value is among the acceptable values (OR within a
field, AND across fields). -/
def rowMatches (filter : List (String × List String)) (row : PRow) : Bool :=
  filter.all (fun p =>
    match alookup row p.1 with
    | Option.some v => p.2.contains v
    | Option.none => false)

/-- cacheSelect: Modelled from the spec: `FilterableCache.select(tag,
filter)` answers from the stored rows of the tagged dataset. -/
def cacheSelect (cache : CacheState) (tag : String)
    (filter : List (String × List String)) : List PRow :=
  match alookup cache tag with
  | Option.some entry => entry.2.filter (rowMatches filter)
  | Option.none => []

/-- cached_select embeds `Cursor.cached_select`: the tag is the query text
concatenated with the sorted filter field names joined without separator;
a missing tag executes the query remotely (`exec`) and stores the result;
the rows are then answered from the cache.  The Bool records whether the
remote query was executed during this call. -/
def cached_select (exec : String → List PRow) (cache : CacheState) (query : String)
    (filter : List (String × List String)) : CacheState × List PRow × Bool :=
  let keys := sortStrings (filter.map Prod.fst)
  let tag := query ++ String.join keys
  if hasDataset cache tag then (cache, cacheSelect cache tag filter, false)
  else
    let rows := exec query
    let cache2 := addDataset cache tag keys rows
    (cache2, cacheSelect cache2 tag filter, true)

/-! ## Theorems for claim C9. -/

/-- C9: counterexample.  The cache key is the bare string concatenation of
query and sorted field names, so the distinct (query, field-names) pairs
`("q", ["ab"])` and `("qa", ["b"])` collide on the tag `"qab"`: after a
first call with query `q` and filter field `ab`, a call with the different
query `qa` and filter field `b` is answered from the first call's entry and
the remote query `qa` is never executed — contradicting the claim that the
cache is keyed by the pair and that distinct keys get distinct entries. -/
theorem cached_select_tag_collision_cx :
    (let exec : String → List PRow := fun q => [[("f", q)]]
     let step1 := cached_select exec [] "q" [("ab", ["v"])]
     let step2 := cached_select exec step1.1 "qa" [("b", ["v"])]
     step2.2.2 = false ∧ step2.1 = step1.1 ∧
       alookup step1.1 "qab" = Option.some (["ab"], [[("f", "q")]])) ∧
    ("q", ["ab"]) ≠ ("qa", ["b"]) := by
  constructor
  · refine ⟨rfl, rfl, rfl⟩
  · decide

/-- C9 (amended): the cache is keyed by the concatenated tag
`query ++ join(sorted field names)`: an absent tag executes the query and
stores its rows under the tag; a present tag is answered from the stored
rows (a sublist of them) without executing anything; distinct tags have
distinct entries, but distinct (query, field-names) pairs whose
concatenations coincide share one entry. -/
theorem cached_select_tag_keyed (exec : String → List PRow) (cache : CacheState)
    (query : String) (filter : List (String × List String)) :
    (hasDataset cache (query ++ String.join (sortStrings (filter.map Prod.fst))) = true →
      (cached_select exec cache query filter).1 = cache ∧
      (cached_select exec cache query filter).2.2 = false ∧
      ∀ ks rows,
        alookup cache (query ++ String.join (sortStrings (filter.map Prod.fst))) =
          Option.some (ks, rows) →
        (cached_select exec cache query filter).2.1.Sublist rows) ∧
    (hasDataset cache (query ++ String.join (sortStrings (filter.map Prod.fst))) = false →
      (cached_select exec cache query filter).2.2 = true ∧
      alookup (cached_select exec cache query filter).1
          (query ++ String.join (sortStrings (filter.map Prod.fst))) =
        Option.some (sortStrings (filter.map Prod.fst), exec query)) := by
  constructor
  · intro hh
    refine ⟨?_, ?_, ?_⟩
    · simp [cached_select, hh]
    · simp [cached_select, hh]
    · intro ks rows hrows
      simp only [cached_select, hh, if_true]
      simp only [cacheSelect, hrows]
      exact List.filter_sublist rows
  · intro hh
    constructor
    · simp [cached_select, hh]
    · simp only [cached_select, hh, Bool.false_eq_true, if_false, addDataset]
      exact alookup_aset_self cache _ _

/-- cached_select_tag_keyed_witness instantiates C9's amended statement on
an empty cache: the first call executes and stores under its tag. -/
theorem cached_select_tag_keyed_witness :
    (cached_select (fun q => [[("f", q)]]) [] "q" [("ab", ["v"])]).2.2 = true ∧
    alookup (cached_select (fun q => [[("f", q)]]) [] "q" [("ab", ["v"])]).1 "qab" =
      Option.some (["ab"], [[("f", "q")]]) := by
  have h := (cached_select_tag_keyed (fun q => [[("f", q)]]) [] "q" [("ab", ["v"])]).2 rfl
  exact ⟨h.1, h.2⟩

/-! ## Document flattening (`Cursor._flatten_dict`, `Cursor._flatten_array`).

Python values are embedded as `PVal`; dicts are association lists iterated
in insertion order.  Strings are modelled as scalars (Python 2 `str`
semantics: no `__iter__`), under which the flattener behaves as the module
documents; the claims under verification do not involve string values
inside arrays.  The duck-typed checks of the source map as follows:
`hasattr(v, 'items')` holds for dicts, `hasattr(v, '__iter__')` for arrays
(dicts are matched by the items-check first), `hasattr(v, '__len__')` for
strings, arrays and dicts. -/

/-- PVal is an embedded Python value.  A float is carried by its printed
text, as for `PParam`. -/
inductive PVal where
  | pnone : PVal
  | pbool : Bool → PVal
  | pint : Int → PVal
  | pfloat : String → PVal
  | pstr : String → PVal
  | parr : List PVal → PVal
  | pdict : List (String × PVal) → PVal

/-- pyEmptySkip is the guard `v is None or (hasattr(v, '__len__') and
len(v) == 0)` that makes the flattener skip a value. -/
def pyEmptySkip : PVal → Bool
  | PVal.pnone => true
  | PVal.pstr s => s.isEmpty
  | PVal.parr xs => xs.isEmpty
  | PVal.pdict kvs => kvs.isEmpty
  | _ => false

/-- NestingLevelTooHigh is the exception raised on nesting the wire format
cannot express. -/
inductive NestingLevelTooHigh where
  | mk : NestingLevelTooHigh

mutual

/-- jsonDumps: Modelled from the spec: `ujson.dumps` (external library), a
generic structured-text encoding of the whole value. -/
def jsonDumps : PVal → String
  | PVal.pnone => "null"
  | PVal.pbool b => if b then "true" else "false"
  | PVal.pint n => toString n
  | PVal.pfloat t => t
  | PVal.pstr s => "\"" ++ s ++ "\""
  | PVal.parr xs => "[" ++ jsonDumpsList xs ++ "]"
  | PVal.pdict kvs => "\x7b" ++ jsonDumpsObj kvs ++ "\x7d"

/-- jsonDumpsList renders array elements, comma-separated. -/
def jsonDumpsList : List PVal → String
  | [] => ""
  | [x] => jsonDumps x
  | x :: y :: rest => jsonDumps x ++ "," ++ jsonDumpsList (y :: rest)

/-- jsonDumpsObj renders object entries, comma-separated. -/
def jsonDumpsObj : List (String × PVal) → String
  | [] => ""
  | [(k, v)] => "\"" ++ k ++ "\":" ++ jsonDumps v
  | (k, v) :: p :: rest => "\"" ++ k ++ "\":" ++ jsonDumps v ++ "," ++ jsonDumpsObj (p :: rest)

end

/-- mergeElem embeds the inner loop of `_flatten_array` for an array-of-maps
element: for each flattened sub-field `(k, v)` of element `i`, the column
`k` is created as `[None] * n` if absent and its position `i` set to `v`. -/
def mergeElem (n i : Nat) (flat : List (String × PVal))
    (st : List (String × List PVal)) : List (String × List PVal) :=
  flat.foldl (fun acc p =>
    aset acc p.1 (((alookup acc p.1).getD (List.replicate n PVal.pnone)).set i p.2)) st

mutual

/-- flatten_dict embeds `Cursor._flatten_dict`: the prefix gains an
underscore once it is nonempty, empty/None values are skipped, nested dicts
recurse (with arrays allowed again, as the source's default argument does),
array values flatten via `flatten_array` when allowed and raise
`NestingLevelTooHigh` otherwise, scalars are stored under `prefix + key`. -/
def flatten_dict (kvs : List (String × PVal)) (pfx : String) (allowArrays : Bool) :
    Except NestingLevelTooHigh (List (String × PVal)) :=
  flattenDictGo (if pfx ≠ "" then pfx ++ "_" else pfx) allowArrays kvs []

/-- flattenDictGo is the `for k, v in doc.items()` loop of `_flatten_dict`,
carrying the result dict. -/
def flattenDictGo (pfx : String) (allowArrays : Bool) :
    List (String × PVal) → List (String × PVal) →
    Except NestingLevelTooHigh (List (String × PVal))
  | [], st => Except.ok st
  | (k, v) :: rest, st =>
    if pyEmptySkip v then flattenDictGo pfx allowArrays rest st
    else
      match v with
      | PVal.pdict sub =>
        match flatten_dict sub (pfx ++ k) true with
        | Except.error e => Except.error e
        | Except.ok inner => flattenDictGo pfx allowArrays rest (aupdate st inner)
      | PVal.parr xs =>
        if allowArrays then
          flattenDictGo pfx allowArrays rest (aupdate st (flatten_array xs (pfx ++ k)))
        else Except.error NestingLevelTooHigh.mk
      | _ => flattenDictGo pfx allowArrays rest (aset st (pfx ++ k) v)

/-- flatten_array embeds `Cursor._flatten_array`: the element loop either
completes, or raises `NestingLevelTooHigh`, in which case the partial result
built so far is kept and the whole array is serialized into the
`prefix + "_json"` text column. -/
def flatten_array (xs : List PVal) (pfx : String) : List (String × PVal) :=
  match flattenArrayGo pfx xs.length 0 xs [] with
  | Except.ok st => st.map (fun p => (p.1, PVal.parr p.2))
  | Except.error st =>
    aset (st.map (fun p => (p.1, PVal.parr p.2))) (pfx ++ "_json")
      (PVal.pstr (jsonDumps (PVal.parr xs)))

/-- flattenArrayGo is the `for i, element in enumerate(arr)` loop of
`_flatten_array`: None/empty elements are skipped, dict elements flatten
with arrays disallowed and merge positionally, a nested array element
raises, scalars go to the bare-prefix column; the error value carries the
result dict as already mutated when the exception is raised. -/
def flattenArrayGo (pfx : String) (n : Nat) :
    Nat → List PVal → List (String × List PVal) →
    Except (List (String × List PVal)) (List (String × List PVal))
  | _, [], st => Except.ok st
  | i, x :: rest, st =>
    if pyEmptySkip x then flattenArrayGo pfx n (i + 1) rest st
    else
      match x with
      | PVal.pdict sub =>
        match flatten_dict sub pfx false with
        | Except.error _ => Except.error st
        | Except.ok flat => flattenArrayGo pfx n (i + 1) rest (mergeElem n i flat st)
      | PVal.parr _ => Except.error st
      | _ =>
        flattenArrayGo pfx n (i + 1) rest
          (aset st pfx (((alookup st pfx).getD (List.replicate n PVal.pnone)).set i x))

end

/-! ## Supporting lemmas for the flattener. -/

theorem getD_set_self {α : Type u} (l : List α) (i : Nat) (v d : α) (h : i < l.length) :
    (l.set i v).getD i d = v := by
  induction l generalizing i with
  | nil => simp at h
  | cons x rest ih =>
    cases i with
    | zero => simp [List.set, List.getD]
    | succ i =>
      simp only [List.length_cons, Nat.succ_lt_succ_iff] at h
      simpa [List.set, List.getD] using ih i h

theorem getD_set_ne {α : Type u} (l : List α) (i j : Nat) (v d : α) (h : i ≠ j) :
    (l.set i v).getD j d = l.getD j d := by
  induction l generalizing i j with
  | nil => simp [List.set]
  | cons x rest ih =>
    cases i with
    | zero =>
      cases j with
      | zero => exact absurd rfl h
      | succ j => simp [List.set, List.getD]
    | succ i =>
      cases j with
      | zero => simp [List.set, List.getD]
      | succ j =>
        have : i ≠ j := fun he => h (by rw [he])
        simpa [List.set, List.getD] using ih i j this

theorem getD_replicate {α : Type u} (n j : Nat) (d : α) :
    (List.replicate n d).getD j d = d := by
  induction n generalizing j with
  | zero => simp [List.getD]
  | succ n ih =>
    cases j with
    | zero => simp [List.replicate, List.getD]
    | succ j => simp [List.replicate, List.getD, ih j]

theorem mem_aset {α : Type u} (l : List (String × α)) (key : String) (val : α)
    (k : String) (v : α) (h : (k, v) ∈ aset l key val) :
    (k = key ∧ v = val) ∨ (k, v) ∈ l := by
  induction l with
  | nil =>
    simp [aset] at h
    exact Or.inl h
  | cons hd tl ih =>
    obtain ⟨k2, v2⟩ := hd
    by_cases hk : k2 = key
    · simp only [aset, if_pos hk] at h
      rcases List.mem_cons.mp h with h | h
      · exact Or.inl (by simpa using h)
      · exact Or.inr (List.mem_cons_of_mem _ h)
    · simp only [aset, if_neg hk] at h
      rcases List.mem_cons.mp h with h | h
      · exact Or.inr (by simp [h])
      · rcases ih h with h | h
        · exact Or.inl h
        · exact Or.inr (List.mem_cons_of_mem _ h)

/-- oldVal reads position `j` of column `k` of a loop state, with NULL for
absent columns and positions. -/
def oldVal (st : List (String × List PVal)) (k : String) (j : Nat) : PVal :=
  match alookup st k with
  | Option.some c => c.getD j PVal.pnone
  | Option.none => PVal.pnone

/-- elemField is the claim-side description of what one flattened array
column holds at the position of a given source element: the value of the
flattened sub-field `k` of that element, NULL when the element is
null/empty or the sub-field is missing. -/
def elemField (pfx : String) (k : String) (x : PVal) : PVal :=
  if pyEmptySkip x then PVal.pnone
  else
    match x with
    | PVal.pdict sub =>
      match flatten_dict sub pfx false with
      | Except.ok flat => (alookup flat k).getD PVal.pnone
      | Except.error _ => PVal.pnone
    | _ => PVal.pnone

theorem nodup_keys_mergeElem (n i : Nat) (flat : List (String × PVal))
    (st : List (String × List PVal)) (h : (st.map Prod.fst).Nodup) :
    ((mergeElem n i flat st).map Prod.fst).Nodup := by
  induction flat generalizing st with
  | nil => simpa [mergeElem] using h
  | cons p rest ih =>
    simpa [mergeElem] using ih _ (nodup_keys_aset st p.1 _ h)

theorem alookup_mergeElem (n i : Nat) (flat : List (String × PVal))
    (st : List (String × List PVal)) (k : String)
    (hnd : (flat.map Prod.fst).Nodup) :
    alookup (mergeElem n i flat st) k =
      match alookup flat k with
      | Option.some v =>
        Option.some (((alookup st k).getD (List.replicate n PVal.pnone)).set i v)
      | Option.none => alookup st k := by
  induction flat generalizing st with
  | nil => simp [mergeElem, alookup]
  | cons p rest ih =>
    obtain ⟨k0, v0⟩ := p
    simp only [List.map_cons, List.nodup_cons] at hnd
    have hstep : mergeElem n i ((k0, v0) :: rest) st =
        mergeElem n i rest
          (aset st k0 (((alookup st k0).getD (List.replicate n PVal.pnone)).set i v0)) := by
      simp [mergeElem]
    rw [hstep]
    by_cases hk : k0 = k
    · subst hk
      have hrest : alookup rest k0 = Option.none := by
        cases hfind : alookup rest k0 with
        | none => rfl
        | some v =>
          exact absurd (List.mem_map_of_mem Prod.fst (mem_of_alookup_eq_some rest k0 v hfind))
            hnd.1
      rw [ih _ hnd.2]
      simp [alookup, hrest, alookup_aset_self]
    · rw [ih _ hnd.2]
      simp only [alookup, if_neg hk]
      cases alookup rest k with
      | none => simp [alookup_aset_ne st k0 k _ (fun he => hk he.symm)]
      | some v => simp [alookup_aset_ne st k0 k _ (fun he => hk he.symm)]

theorem isSome_mergeElem (n i : Nat) (flat : List (String × PVal))
    (st : List (String × List PVal)) (k : String)
    (hnd : (flat.map Prod.fst).Nodup)
    (h : (alookup st k).isSome = true) :
    (alookup (mergeElem n i flat st) k).isSome = true := by
  rw [alookup_mergeElem n i flat st k hnd]
  cases alookup flat k with
  | none => exact h
  | some v => simp

theorem isSome_mergeElem_of_flat (n i : Nat) (flat : List (String × PVal))
    (st : List (String × List PVal)) (k : String) (v : PVal)
    (hnd : (flat.map Prod.fst).Nodup)
    (h : (k, v) ∈ flat) :
    (alookup (mergeElem n i flat st) k).isSome = true := by
  rw [alookup_mergeElem n i flat st k hnd]
  rw [alookup_eq_some_of_mem_nodup flat k v hnd h]
  simp

theorem flattenDictGo_nil (pfx : String) (aa : Bool) (st : List (String × PVal)) :
    flattenDictGo pfx aa [] st = Except.ok st := by
  rw [flattenDictGo.eq_def]

theorem flattenDictGo_cons (pfx : String) (aa : Bool) (k : String) (v : PVal)
    (rest st : List (String × PVal)) :
    flattenDictGo pfx aa ((k, v) :: rest) st =
      if pyEmptySkip v then flattenDictGo pfx aa rest st
      else
        match v with
        | PVal.pdict sub =>
          match flatten_dict sub (pfx ++ k) true with
          | Except.error e => Except.error e
          | Except.ok inner => flattenDictGo pfx aa rest (aupdate st inner)
        | PVal.parr xs =>
          if aa then flattenDictGo pfx aa rest (aupdate st (flatten_array xs (pfx ++ k)))
          else Except.error NestingLevelTooHigh.mk
        | _ => flattenDictGo pfx aa rest (aset st (pfx ++ k) v) := by
  rw [flattenDictGo.eq_def]

theorem flattenArrayGo_nil (pfx : String) (n i : Nat) (st : List (String × List PVal)) :
    flattenArrayGo pfx n i [] st = Except.ok st := by
  rw [flattenArrayGo.eq_def]

theorem flattenArrayGo_cons (pfx : String) (n i : Nat) (x : PVal) (rest : List PVal)
    (st : List (String × List PVal)) :
    flattenArrayGo pfx n i (x :: rest) st =
      if pyEmptySkip x then flattenArrayGo pfx n (i + 1) rest st
      else
        match x with
        | PVal.pdict sub =>
          match flatten_dict sub pfx false with
          | Except.error _ => Except.error st
          | Except.ok flat => flattenArrayGo pfx n (i + 1) rest (mergeElem n i flat st)
        | PVal.parr _ => Except.error st
        | _ =>
          flattenArrayGo pfx n (i + 1) rest
            (aset st pfx (((alookup st pfx).getD (List.replicate n PVal.pnone)).set i x)) := by
  rw [flattenArrayGo.eq_def]

theorem flattenDictGo_keys_nodup (pfx : String) (aa : Bool) :
    ∀ (l st res : List (String × PVal)),
      flattenDictGo pfx aa l st = Except.ok res →
      (st.map Prod.fst).Nodup → (res.map Prod.fst).Nodup := by
  intro l
  induction l with
  | nil =>
    intro st res h hst
    rw [flattenDictGo_nil] at h
    cases h
    exact hst
  | cons p rest ih =>
    intro st res h hst
    obtain ⟨k, v⟩ := p
    rw [flattenDictGo_cons] at h
    by_cases hskip : pyEmptySkip v
    · rw [if_pos hskip] at h
      exact ih st res h hst
    · rw [if_neg hskip] at h
      split at h
      · split at h
        · exact Except.noConfusion h
        · exact ih _ res h (nodup_keys_aupdate st _ hst)
      · split at h
        · exact ih _ res h (nodup_keys_aupdate st _ hst)
        · exact Except.noConfusion h
      · exact ih _ res h (nodup_keys_aset st _ _ hst)

theorem flatten_dict_keys_nodup (kvs : List (String × PVal)) (pfx : String)
    (aa : Bool) (res : List (String × PVal))
    (h : flatten_dict kvs pfx aa = Except.ok res) : (res.map Prod.fst).Nodup := by
  simp only [flatten_dict] at h
  exact flattenDictGo_keys_nodup _ aa kvs [] res h (by simp)

/-! ## Theorems for claim C3. -/

/-- C3: counterexample.  The array `[1, [2]]` nests beyond one level; the
fallback stores the whole array in `p_json`, but the column `p`, already
built from the leading scalar element before the exception was raised,
stays in the output — the claim that no other column derived from the array
appears is false. -/
theorem flatten_array_fallback_keeps_prior_columns_cx :
    flatten_array [PVal.pint 1, PVal.parr [PVal.pint 2]] "p" =
      [("p", PVal.parr [PVal.pint 1, PVal.pnone]),
       ("p_json", PVal.pstr "[1,[2]]")] ∧
    (flatten_array [PVal.pint 1, PVal.parr [PVal.pint 2]] "p").map Prod.fst ≠
      ["p_json"] := by
  have h : flatten_array [PVal.pint 1, PVal.parr [PVal.pint 2]] "p" =
      [("p", PVal.parr [PVal.pint 1, PVal.pnone]),
       ("p_json", PVal.pstr "[1,[2]]")] := by
    simp [flatten_array, flattenArrayGo, flatten_dict, flattenDictGo, mergeElem,
      pyEmptySkip, aset, alookup, jsonDumps, jsonDumpsList]
    rfl
  refine ⟨h, ?_⟩
  rw [h]
  simp

/-- C3 (amended): when the element loop of `_flatten_array` raises the
nesting error, the error never propagates (`flatten_array` is total): the
whole array is serialized into the `prefix + "_json"` text column, and any
other column of the output is one of the columns already built from the
elements processed before the exception. -/
theorem flatten_array_fallback_json_column (xs : List PVal) (pfx : String)
    (st : List (String × List PVal))
    (h : flattenArrayGo pfx xs.length 0 xs [] = Except.error st) :
    alookup (flatten_array xs pfx) (pfx ++ "_json") =
      Option.some (PVal.pstr (jsonDumps (PVal.parr xs))) ∧
    ∀ k v, (k, v) ∈ flatten_array xs pfx → k ≠ pfx ++ "_json" →
      ∃ col, (k, col) ∈ st ∧ v = PVal.parr col := by
  have hunf : flatten_array xs pfx =
      aset (st.map (fun p => (p.1, PVal.parr p.2))) (pfx ++ "_json")
        (PVal.pstr (jsonDumps (PVal.parr xs))) := by
    simp only [flatten_array, h]
  constructor
  · rw [hunf]
    exact alookup_aset_self _ _ _
  · intro k v hm hk
    rw [hunf] at hm
    rcases mem_aset _ _ _ _ _ hm with ⟨he, _⟩ | hm2
    · exact absurd he hk
    · obtain ⟨⟨k2, col⟩, hcol, hEq⟩ := List.mem_map.mp hm2
      simp only [Prod.mk.injEq] at hEq
      exact ⟨col, by rw [← hEq.1]; exact hcol, hEq.2.symm⟩

/-- flatten_array_fallback_json_column_witness instantiates C3's amended
statement at the directly nested array `[[1]]`: the loop raises at once
with an empty partial state and the output is the lone json column. -/
theorem flatten_array_fallback_json_column_witness :
    flattenArrayGo "p" 1 0 [PVal.parr [PVal.pint 1]] [] =
      Except.error ([] : List (String × List PVal)) ∧
    alookup (flatten_array [PVal.parr [PVal.pint 1]] "p") "p_json" =
      Option.some (PVal.pstr "[[1]]") := by
  have hgo : flattenArrayGo "p" 1 0 [PVal.parr [PVal.pint 1]] [] =
      Except.error ([] : List (String × List PVal)) := by
    simp [flattenArrayGo, pyEmptySkip]
  refine ⟨hgo, ?_⟩
  have h1 := (flatten_array_fallback_json_column [PVal.parr [PVal.pint 1]] "p" [] hgo).1
  have hjson : jsonDumps (PVal.parr [PVal.parr [PVal.pint 1]]) = "[[1]]" := by
    simp [jsonDumps, jsonDumpsList]
    rfl
  rw [hjson] at h1
  exact h1

theorem mergeElem_col_spec (n i : Nat) (flat : List (String × PVal))
    (st : List (String × List PVal)) (k : String) (col : List PVal)
    (hndflat : (flat.map Prod.fst).Nodup)
    (hc : alookup (mergeElem n i flat st) k = Option.some col)
    (hst : ∀ c, alookup st k = Option.some c → c.length = n) :
    col.length = n ∧
    (∀ j, j ≠ i → col.getD j PVal.pnone = oldVal st k j) ∧
    (i < n → col.getD i PVal.pnone =
      match alookup flat k with
      | Option.some v => v
      | Option.none => oldVal st k i) := by
  rw [alookup_mergeElem n i flat st k hndflat] at hc
  cases hflk : alookup flat k with
  | none =>
    rw [hflk] at hc
    have hc2 : alookup st k = Option.some col := hc
    refine ⟨hst col hc2, ?_, ?_⟩
    · intro j _
      simp [oldVal, hc2]
    · intro _
      simp [oldVal, hc2]
  | some v =>
    rw [hflk] at hc
    have hc2 : Option.some (((alookup st k).getD (List.replicate n PVal.pnone)).set i v) =
        Option.some col := hc
    have hcol : col = ((alookup st k).getD (List.replicate n PVal.pnone)).set i v := by
      exact (Option.some.injEq _ _).mp hc2.symm
    have hcurlen : ((alookup st k).getD (List.replicate n PVal.pnone)).length = n := by
      cases hstk : alookup st k with
      | none => simp
      | some c => simpa using hst c hstk
    subst hcol
    refine ⟨by simp [hcurlen], ?_, ?_⟩
    · intro j hj
      rw [getD_set_ne _ _ _ _ _ (fun he => hj he.symm)]
      cases hstk : alookup st k with
      | none => simp [oldVal, hstk, getD_replicate]
      | some c => simp [oldVal, hstk]
    · intro hin
      rw [getD_set_self _ _ _ _ (by rw [hcurlen]; exact hin)]

theorem oldVal_mergeElem_ne (n i j : Nat) (flat : List (String × PVal))
    (st : List (String × List PVal)) (k : String)
    (hndflat : (flat.map Prod.fst).Nodup)
    (hij : j ≠ i) :
    oldVal (mergeElem n i flat st) k j = oldVal st k j := by
  simp only [oldVal]
  rw [alookup_mergeElem n i flat st k hndflat]
  cases hflk : alookup flat k with
  | none => rfl
  | some v =>
    cases hstk : alookup st k with
    | none =>
      show ((List.replicate n PVal.pnone).set i v).getD j PVal.pnone = PVal.pnone
      rw [getD_set_ne _ i j _ _ (fun he => hij he.symm)]
      exact getD_replicate n j PVal.pnone
    | some c =>
      show (c.set i v).getD j PVal.pnone = c.getD j PVal.pnone
      exact getD_set_ne _ i j _ _ (fun he => hij he.symm)

theorem oldVal_mergeElem_self (n i : Nat) (flat : List (String × PVal))
    (st : List (String × List PVal)) (k : String)
    (hndflat : (flat.map Prod.fst).Nodup) (hin : i < n)
    (hst : ∀ c, alookup st k = Option.some c → c.length = n) :
    oldVal (mergeElem n i flat st) k i =
      match alookup flat k with
      | Option.some v => v
      | Option.none => oldVal st k i := by
  simp only [oldVal]
  rw [alookup_mergeElem n i flat st k hndflat]
  cases hflk : alookup flat k with
  | none => rfl
  | some v =>
    cases hstk : alookup st k with
    | none =>
      show ((List.replicate n PVal.pnone).set i v).getD i PVal.pnone = v
      exact getD_set_self _ i _ _ (by simp [hin])
    | some c =>
      show (c.set i v).getD i PVal.pnone = v
      exact getD_set_self _ i _ _ (by rw [hst c hstk]; exact hin)

theorem flattenArrayGo_inv (pfx : String) (n : Nat) :
    ∀ (rem : List PVal) (i : Nat) (st res : List (String × List PVal)),
      flattenArrayGo pfx n i rem st = Except.ok res →
      i + rem.length = n →
      (∀ x ∈ rem, pyEmptySkip x = true ∨ ∃ kvs, x = PVal.pdict kvs) →
      (st.map Prod.fst).Nodup →
      (∀ k col, alookup st k = Option.some col → col.length = n ∧
        ∀ j, i ≤ j → j < n → col.getD j PVal.pnone = PVal.pnone) →
      ((res.map Prod.fst).Nodup ∧
        (∀ k col, alookup res k = Option.some col →
          col.length = n ∧
          (∀ j, j < i → col.getD j PVal.pnone = oldVal st k j) ∧
          (∀ j, i ≤ j → j < n →
            col.getD j PVal.pnone = elemField pfx k (rem.getD (j - i) PVal.pnone))) ∧
        (∀ k, (alookup st k).isSome = true → (alookup res k).isSome = true) ∧
        (∀ x ∈ rem, ∀ sub flat, x = PVal.pdict sub →
          flatten_dict sub pfx false = Except.ok flat →
          ∀ k v, (k, v) ∈ flat → (alookup res k).isSome = true)) := by
  intro rem
  induction rem with
  | nil =>
    intro i st res h hn hall hnd hinv
    rw [flattenArrayGo_nil] at h
    cases h
    refine ⟨hnd, ?_, fun k hk => hk, by simp⟩
    intro k col hcol
    refine ⟨(hinv k col hcol).1, ?_, ?_⟩
    · intro j _
      simp [oldVal, hcol]
    · intro j hij hjn
      simp only [List.length_nil, Nat.add_zero] at hn
      omega
  | cons x rest ih =>
    intro i st res h hn hall hnd hinv
    have hiltn : i < n := by
      simp only [List.length_cons] at hn
      omega
    rw [flattenArrayGo_cons] at h
    by_cases hskip : pyEmptySkip x
    · rw [if_pos hskip] at h
      have hn2 : (i + 1) + rest.length = n := by
        simp only [List.length_cons] at hn
        omega
      have hinv2 : ∀ k col, alookup st k = Option.some col → col.length = n ∧
          ∀ j, i + 1 ≤ j → j < n → col.getD j PVal.pnone = PVal.pnone :=
        fun k col hc =>
          ⟨(hinv k col hc).1, fun j hj hjn => (hinv k col hc).2 j (by omega) hjn⟩
      have IH := ih (i + 1) st res h hn2
        (fun y hy => hall y (List.mem_cons_of_mem _ hy)) hnd hinv2
      refine ⟨IH.1, ?_, IH.2.2.1, ?_⟩
      · intro k col hcol
        obtain ⟨hlen, hold, hwin⟩ := IH.2.1 k col hcol
        refine ⟨hlen, fun j hj => hold j (by omega), ?_⟩
        intro j hij hjn
        by_cases hji : j = i
        · subst hji
          rw [hold j (by omega)]
          have hef : elemField pfx k ((x :: rest).getD (j - j) PVal.pnone) = PVal.pnone := by
            simp [List.getD, elemField, hskip]
          rw [hef]
          simp only [oldVal]
          cases hstk : alookup st k with
          | none => rfl
          | some c => exact (hinv k c hstk).2 j le_rfl hjn
        · have hj1 : i + 1 ≤ j := by omega
          rw [hwin j hj1 hjn]
          have harith : j - i = (j - (i + 1)) + 1 := by omega
          rw [harith]
          simp [List.getD]
      · intro y hy sub flat hysub hfd k v hkv
        rcases List.mem_cons.mp hy with hy | hy
        · subst hy
          rw [hysub] at hskip
          have hsub : sub = [] := by
            simpa [pyEmptySkip] using hskip
          subst hsub
          have hok : flatten_dict [] pfx false = Except.ok [] := by
            simp [flatten_dict, flattenDictGo_nil]
          rw [hok] at hfd
          cases hfd
          cases hkv
        · exact IH.2.2.2 y hy sub flat hysub hfd k v hkv
    · rw [if_neg hskip] at h
      rcases hall x (List.mem_cons_self _ _) with hx | ⟨sub, hx⟩
      · exact absurd hx hskip
      subst hx
      have hred : (match flatten_dict sub pfx false with
          | Except.error _ => (Except.error st :
              Except (List (String × List PVal)) (List (String × List PVal)))
          | Except.ok flat =>
            flattenArrayGo pfx n (i + 1) rest (mergeElem n i flat st)) =
          Except.ok res := h
      cases hfd : flatten_dict sub pfx false with
      | error e =>
        rw [hfd] at hred
        exact Except.noConfusion hred
      | ok flat =>
        rw [hfd] at hred
        have h2 : flattenArrayGo pfx n (i + 1) rest (mergeElem n i flat st) =
            Except.ok res := hred
        have hndflat := flatten_dict_keys_nodup sub pfx false flat hfd
        have hnd2 : ((mergeElem n i flat st).map Prod.fst).Nodup :=
          nodup_keys_mergeElem n i flat st hnd
        have hn2 : (i + 1) + rest.length = n := by
          simp only [List.length_cons] at hn
          omega
        have hinv2 : ∀ k col, alookup (mergeElem n i flat st) k = Option.some col →
            col.length = n ∧
            ∀ j, i + 1 ≤ j → j < n → col.getD j PVal.pnone = PVal.pnone := by
          intro k col hc
          have hspec := mergeElem_col_spec n i flat st k col hndflat hc
            (fun c hsc => (hinv k c hsc).1)
          refine ⟨hspec.1, ?_⟩
          intro j hj hjn
          rw [hspec.2.1 j (by omega)]
          simp only [oldVal]
          cases hstk : alookup st k with
          | none => rfl
          | some c => exact (hinv k c hstk).2 j (by omega) hjn
        have IH := ih (i + 1) (mergeElem n i flat st) res h2 hn2
          (fun y hy => hall y (List.mem_cons_of_mem _ hy)) hnd2 hinv2
        refine ⟨IH.1, ?_, ?_, ?_⟩
        · intro k col hcol
          obtain ⟨hlen, hold, hwin⟩ := IH.2.1 k col hcol
          refine ⟨hlen, ?_, ?_⟩
          · intro j hj
            rw [hold j (by omega)]
            exact oldVal_mergeElem_ne n i j flat st k hndflat (by omega)
          · intro j hij hjn
            by_cases hji : j = i
            · subst hji
              rw [hold j (by omega)]
              rw [oldVal_mergeElem_self n j flat st k hndflat hjn
                (fun c hsc => (hinv k c hsc).1)]
              have hgd : (PVal.pdict sub :: rest).getD (j - j) PVal.pnone =
                  PVal.pdict sub := by
                simp [List.getD]
              rw [hgd]
              have hef : elemField pfx k (PVal.pdict sub) =
                  (alookup flat k).getD PVal.pnone := by
                simp [elemField, hskip, hfd]
              rw [hef]
              cases hflk : alookup flat k with
              | some v => simp
              | none =>
                simp only [Option.getD_none]
                simp only [oldVal]
                cases hstk : alookup st k with
                | none => rfl
                | some c => exact (hinv k c hstk).2 j le_rfl hjn
            · have hj1 : i + 1 ≤ j := by omega
              rw [hwin j hj1 hjn]
              have harith : j - i = (j - (i + 1)) + 1 := by omega
              rw [harith]
              simp [List.getD]
        · intro k hk
          exact IH.2.2.1 k (isSome_mergeElem n i flat st k hndflat hk)
        · intro y hy sub2 flat2 hysub hfd2 k v hkv
          rcases List.mem_cons.mp hy with hy | hy
          · have hsub2 : sub2 = sub := by
              rw [hy] at hysub
              exact (PVal.pdict.injEq _ _).mp hysub.symm
            subst hsub2
            rw [hfd] at hfd2
            cases hfd2
            exact IH.2.2.1 k (isSome_mergeElem_of_flat n i flat st k v hndflat hkv)
          · exact IH.2.2.2 y hy sub2 flat2 hysub hfd2 k v hkv

/-- C6: for every array of maps that the flattener flattens successfully,
each flattened sub-field becomes its own array-valued column of the same
length as the source array, positionally aligned: position j of a column
holds the value of that sub-field in source element j (`elemField`), with
NULL where the element is null/empty or that sub-field is missing; and
every sub-field of every element receives such a column. -/
theorem flatten_array_of_maps_aligned (xs : List PVal) (pfx : String)
    (res : List (String × List PVal))
    (h : flattenArrayGo pfx xs.length 0 xs [] = Except.ok res)
    (hall : ∀ x ∈ xs, pyEmptySkip x = true ∨ ∃ kvs, x = PVal.pdict kvs) :
    flatten_array xs pfx = res.map (fun p => (p.1, PVal.parr p.2)) ∧
    (∀ k col, (k, col) ∈ res → col.length = xs.length ∧
      ∀ j, j < xs.length →
        col.getD j PVal.pnone = elemField pfx k (xs.getD j PVal.pnone)) ∧
    (∀ x ∈ xs, ∀ sub flat, x = PVal.pdict sub →
      flatten_dict sub pfx false = Except.ok flat →
      ∀ k v, (k, v) ∈ flat → ∃ col, (k, col) ∈ res) := by
  have hinv := flattenArrayGo_inv pfx xs.length xs 0 [] res h (by simp) hall (by simp)
    (by intro k col hc; simp [alookup] at hc)
  refine ⟨?_, ?_, ?_⟩
  · simp [flatten_array, h]
  · intro k col hm
    have hc : alookup res k = Option.some col :=
      alookup_eq_some_of_mem_nodup res k col hinv.1 hm
    obtain ⟨hlen, _, hwin⟩ := hinv.2.1 k col hc
    exact ⟨hlen, fun j hj => by simpa using hwin j (Nat.zero_le j) hj⟩
  · intro x hx sub flat hxsub hfd k v hkv
    have hs := hinv.2.2.2 x hx sub flat hxsub hfd k v hkv
    obtain ⟨col, hcol⟩ := Option.isSome_iff_exists.mp hs
    exact ⟨col, mem_of_alookup_eq_some res k col hcol⟩

/-- flatten_array_of_maps_aligned_witness instantiates C6 at the array
`[{a: 1}, None, {b: 2}]` with prefix `p`: columns `p_a = [1, NULL, NULL]`
and `p_b = [NULL, NULL, 2]`, both of length 3 and positionally aligned. -/
theorem flatten_array_of_maps_aligned_witness :
    flattenArrayGo "p"
        ([PVal.pdict [("a", PVal.pint 1)], PVal.pnone,
          PVal.pdict [("b", PVal.pint 2)]].length) 0
        [PVal.pdict [("a", PVal.pint 1)], PVal.pnone, PVal.pdict [("b", PVal.pint 2)]]
        [] =
      Except.ok [("p_a", [PVal.pint 1, PVal.pnone, PVal.pnone]),
        ("p_b", [PVal.pnone, PVal.pnone, PVal.pint 2])] ∧
    ∀ k col, (k, col) ∈ [("p_a", [PVal.pint 1, PVal.pnone, PVal.pnone]),
        ("p_b", [PVal.pnone, PVal.pnone, PVal.pint 2])] →
      col.length = 3 ∧ ∀ j, j < 3 → col.getD j PVal.pnone =
        elemField "p" k ([PVal.pdict [("a", PVal.pint 1)], PVal.pnone,
          PVal.pdict [("b", PVal.pint 2)]].getD j PVal.pnone) := by
  have hgo : flattenArrayGo "p"
      ([PVal.pdict [("a", PVal.pint 1)], PVal.pnone,
        PVal.pdict [("b", PVal.pint 2)]].length) 0
      [PVal.pdict [("a", PVal.pint 1)], PVal.pnone, PVal.pdict [("b", PVal.pint 2)]]
      [] =
      Except.ok [("p_a", [PVal.pint 1, PVal.pnone, PVal.pnone]),
        ("p_b", [PVal.pnone, PVal.pnone, PVal.pint 2])] := by
    simp [flattenArrayGo, flatten_dict, flattenDictGo, mergeElem, pyEmptySkip,
      aset, alookup]
  have hall : ∀ x ∈ [PVal.pdict [("a", PVal.pint 1)], PVal.pnone,
      PVal.pdict [("b", PVal.pint 2)]],
      pyEmptySkip x = true ∨ ∃ kvs, x = PVal.pdict kvs := by
    intro x hx
    rcases List.mem_cons.mp hx with h1 | hx2
    · exact Or.inr ⟨_, h1⟩
    rcases List.mem_cons.mp hx2 with h2 | hx3
    · exact Or.inl (by rw [h2]; rfl)
    rcases List.mem_cons.mp hx3 with h3 | hx4
    · exact Or.inr ⟨_, h3⟩
    · exact absurd hx4 (List.not_mem_nil x)
  have hthm := flatten_array_of_maps_aligned
    [PVal.pdict [("a", PVal.pint 1)], PVal.pnone, PVal.pdict [("b", PVal.pint 2)]]
    "p"
    [("p_a", [PVal.pint 1, PVal.pnone, PVal.pnone]),
      ("p_b", [PVal.pnone, PVal.pnone, PVal.pint 2])]
    hgo hall
  exact ⟨hgo, fun k col hm => hthm.2.1 k col hm⟩

end PyClickhouse
